import Mathlib

/-!
Verification of the schema pretty printer (`diesel_cli/src/pretty_printing.rs`).

The source is a single pass over the input characters maintaining four pieces
of state (output buffer, indentation prefix, skip-space flag, parenthesis
flag) plus the last processed character, followed by three whole-string
post-processing substitutions.  The embedding below mirrors that source
line by line; characters are Lean `Char` (Unicode scalar values, as in Rust)
and strings are `List Char`.
-/

/-- Rust's `char::is_whitespace`: the Unicode `White_Space` property. -/
def rustIsWhitespace (c : Char) : Bool :=
  c.val = 0x09 || c.val = 0x0A || c.val = 0x0B || c.val = 0x0C || c.val = 0x0D ||
  c.val = 0x20 || c.val = 0x85 || c.val = 0xA0 || c.val = 0x1680 ||
  (0x2000 ≤ c.val && c.val ≤ 0x200A) ||
  c.val = 0x2028 || c.val = 0x2029 || c.val = 0x202F || c.val = 0x205F || c.val = 0x3000

/-- The per-pass state of `format_schema`: the output buffer `out`, the
indentation prefix `indent`, the `skip_space` flag, the last processed
character `last_char`, and the `inside_parenthesis` flag. -/
structure FmtState where
  out : List Char
  indent : List Char
  skip_space : Bool
  last_char : Char
  inside_parenthesis : Bool
deriving Repr, DecidableEq

/-- Initial state: empty buffers, flags false, `last_char = ' '`. -/
def initState : FmtState := ⟨[], [], false, ' ', false⟩

/-- Step 1 of the loop body: retroactive whitespace deletion.  If `c` is one
of `! , < ) >` and the last processed character is whitespace, pop the output;
if `c` is `:` and the last processed character is whitespace, pop the output
unless the character before the output's last character is `>`. -/
def retroDelete (st : FmtState) (c : Char) : List Char :=
  if (c = '!' ∨ c = ',' ∨ c = '<' ∨ c = ')' ∨ c = '>') ∧
      rustIsWhitespace st.last_char = true then
    st.out.dropLast
  else if c = ':' ∧ rustIsWhitespace st.last_char = true then
    if st.out.dropLast.getLast? = some '>' then st.out else st.out.dropLast
  else
    st.out

/-- The `while let Some(c) = out.pop()` loop of the `'}'` case, acting on the
reversed buffer: remove characters until a newline has been removed (or the
buffer is exhausted). -/
def dropThroughNewlineRev : List Char → List Char
  | [] => []
  | c :: rest => if c = '\n' then rest else dropThroughNewlineRev rest

/-- Pop characters off the end of `out` until (and including) the most recent
newline; if no newline is present the whole buffer is removed. -/
def popUntilNewline (out : List Char) : List Char :=
  (dropThroughNewlineRev out.reverse).reverse

/-- Step 4 of the loop body: on `'}'`, pop the output back through the most
recent newline, shorten the indentation prefix by one unit, and append a
newline plus the shortened prefix.  Returns the new output and prefix. -/
def dedentPhase (out indent : List Char) (c : Char) : List Char × List Char :=
  if c = '}' then
    (popUntilNewline out ++ '\n' :: indent.dropLast, indent.dropLast)
  else
    (out, indent)

/-- Step 5 of the loop body: `'('` sets the parenthesis flag, `')'` clears
it, with no depth counting. -/
def parenUpdate (paren : Bool) (c : Char) : Bool :=
  if c = '(' then true else if c = ')' then false else paren

/-- Step 7 of the loop body, after `c` has been appended (`out3` ends in
`c`): the post-emit structural formatting, producing the iteration's final
state. -/
def postEmit (out3 ind2 : List Char) (paren2 : Bool) (c : Char) : FmtState :=
  if c = ',' then
    if paren2 then ⟨out3, ind2, false, c, paren2⟩
    else ⟨out3 ++ '\n' :: ind2, ind2, true, c, paren2⟩
  else if c = '}' then ⟨out3 ++ '\n' :: ind2, ind2, true, c, paren2⟩
  else if c = '{' then
    ⟨out3 ++ '\n' :: (ind2 ++ ['\t']), ind2 ++ ['\t'], true, c, paren2⟩
  else if c = ':' ∨ c = '(' ∨ c = '<' then ⟨out3, ind2, true, c, paren2⟩
  else ⟨out3, ind2, false, c, paren2⟩

/-- Steps 4–7 of the loop body, reached when the character is not skipped:
the `'}'` dedent rewrite, parenthesis tracking, emitting `c`, and the
post-emit structural formatting.  `out` is the buffer after retroactive
deletion; the returned state has `last_char = c`. -/
def emitPhase (out indent : List Char) (paren : Bool) (c : Char) : FmtState :=
  postEmit ((dedentPhase out indent c).1 ++ [c]) (dedentPhase out indent c).2
    (parenUpdate paren c) c

/-- One iteration of the `for c in schema.chars()` loop of `format_schema`. -/
def processChar (st : FmtState) (c : Char) : FmtState :=
  let out1 := retroDelete st c
  if st.skip_space = true ∧ rustIsWhitespace c = true ∧ ¬ st.last_char = '>' then
    { st with out := out1 }
  else
    emitPhase out1 st.indent st.inside_parenthesis c

/-- Run the pass over a character list from a given state. -/
def runState (st : FmtState) (s : List Char) : FmtState :=
  s.foldl processChar st

/-- `String::replace("\t", "    ")`: replace every tab by four spaces. -/
def replaceTab : List Char → List Char
  | [] => []
  | c :: rest => (if c = '\t' then [' ', ' ', ' ', ' '] else [c]) ++ replaceTab rest

/-- `String::replace("table!", "\ntable!")`: insert a newline before every
(non-overlapping, left-to-right) occurrence of `table!`. -/
def replaceTable : List Char → List Char
  | 't' :: 'a' :: 'b' :: 'l' :: 'e' :: '!' :: rest =>
      '\n' :: 't' :: 'a' :: 'b' :: 'l' :: 'e' :: '!' :: replaceTable rest
  | c :: rest => c :: replaceTable rest
  | [] => []

/-- Rust's `str::trim`: drop leading and trailing whitespace. -/
def trimL (s : List Char) : List Char :=
  ((s.dropWhile rustIsWhitespace).reverse.dropWhile rustIsWhitespace).reverse

/-- The body of `format_schema`: the character pass followed by the three
post-processing substitutions (tab → four spaces, newline before `table!`,
trim). -/
def formatSchemaCore (schema : List Char) : List Char :=
  trimL (replaceTable (replaceTab (runState initState schema).out))

/-- Rust's `std::fmt::Error`. -/
inductive FmtError where
  | mk
deriving Repr, DecidableEq

/-- `format_schema` itself.  Its only failure mode in the source is the `?`
on `write!` into the output `String`, and `fmt::Write` for `String` never
errors, so the embedding always returns `Except.ok`. -/
def format_schema (schema : List Char) : Except FmtError (List Char) :=
  Except.ok (formatSchemaCore schema)

/-- Modelled from the spec's words for the colon rule, for comparison with
`retroDelete` (the source): «look at the character immediately before the
deleted whitespace's predecessor» — the whitespace sits at the end of the
buffer, its predecessor is the character before it, and the character
immediately before that predecessor is examined. -/
def retroDeleteC4spec (st : FmtState) (c : Char) : List Char :=
  if (c = '!' ∨ c = ',' ∨ c = '<' ∨ c = ')' ∨ c = '>') ∧
      rustIsWhitespace st.last_char = true then
    st.out.dropLast
  else if c = ':' ∧ rustIsWhitespace st.last_char = true then
    if st.out.dropLast.dropLast.getLast? = some '>' then st.out else st.out.dropLast
  else
    st.out

/-- The loop iteration with the spec-worded colon rule substituted. -/
def processCharC4spec (st : FmtState) (c : Char) : FmtState :=
  let out1 := retroDeleteC4spec st c
  if st.skip_space = true ∧ rustIsWhitespace c = true ∧ ¬ st.last_char = '>' then
    { st with out := out1 }
  else
    emitPhase out1 st.indent st.inside_parenthesis c

/-- The whole formatter with the spec-worded colon rule substituted. -/
def formatSchemaC4spec (schema : List Char) : List Char :=
  trimL (replaceTable (replaceTab (schema.foldl processCharC4spec initState).out))

/-- Modelled from the spec's words for the skip-space flag, for comparison
with `processChar` (the source): «the flag resets itself to false as soon as
a whitespace character is actually consumed or skipped via this mechanism» —
so on the skip path the flag is cleared as well. -/
def processCharC5spec (st : FmtState) (c : Char) : FmtState :=
  let out1 := retroDelete st c
  if st.skip_space = true ∧ rustIsWhitespace c = true ∧ ¬ st.last_char = '>' then
    { st with out := out1, skip_space := false }
  else
    emitPhase out1 st.indent st.inside_parenthesis c

/-- The whole formatter with the spec-worded skip-space reset substituted. -/
def formatSchemaC5spec (schema : List Char) : List Char :=
  trimL (replaceTable (replaceTab (schema.foldl processCharC5spec initState).out))

/-- The non-whitespace characters of a string, in order. -/
def nonWsChars (s : List Char) : List Char :=
  s.filter (fun c => !(rustIsWhitespace c))

/-- The multiset of non-whitespace characters of a string. -/
def tokenMultiset (s : List Char) : Multiset Char :=
  (nonWsChars s : Multiset Char)

/-- The loop invariant: whenever the last processed character is whitespace,
the output buffer is empty or ends with that very character; and the
indentation prefix consists of tab characters only. -/
def LoopInv (st : FmtState) : Prop :=
  (rustIsWhitespace st.last_char = true →
    st.out = [] ∨ st.out.getLast? = some st.last_char) ∧
  (∀ ch ∈ st.indent, ch = '\t')

theorem ws_not_special {c : Char} (h : rustIsWhitespace c = true) :
    ¬ c = '!' ∧ ¬ c = ',' ∧ ¬ c = '<' ∧ ¬ c = ')' ∧ ¬ c = '>' ∧ ¬ c = ':' ∧
      ¬ c = '}' ∧ ¬ c = '{' ∧ ¬ c = '(' := by
  refine ⟨?_, ?_, ?_, ?_, ?_, ?_, ?_, ?_, ?_⟩ <;>
    (intro hc; subst hc; exact absurd h (by decide))

theorem processChar_skip {st : FmtState} {c : Char} (h1 : st.skip_space = true)
    (h2 : rustIsWhitespace c = true) (h3 : ¬ st.last_char = '>') :
    processChar st c = st := by
  obtain ⟨n1, n2, n3, n4, n5, n6, _, _, _⟩ := ws_not_special h2
  have hr : retroDelete st c = st.out := by
    unfold retroDelete
    rw [if_neg, if_neg]
    · intro ⟨hc, _⟩; exact n6 hc
    · intro ⟨hc, _⟩; rcases hc with h | h | h | h | h
      exacts [n1 h, n2 h, n3 h, n4 h, n5 h]
  unfold processChar
  rw [if_pos ⟨h1, h2, h3⟩, hr]

theorem postEmit_last (o i : List Char) (p : Bool) (c : Char) :
    (postEmit o i p c).last_char = c := by
  unfold postEmit
  split_ifs <;> rfl

theorem postEmit_indent (o i : List Char) (p : Bool) (c : Char) :
    (postEmit o i p c).indent = if c = '{' then i ++ ['\t'] else i := by
  unfold postEmit
  split_ifs <;> simp_all

theorem postEmit_out (o i : List Char) (p : Bool) (c : Char) :
    (postEmit o i p c).out = o ∨
      (postEmit o i p c).out = o ++ '\n' :: (postEmit o i p c).indent := by
  unfold postEmit
  split_ifs <;> simp_all

theorem postEmit_other {c : Char} (o i : List Char) (p : Bool)
    (h1 : ¬ c = ',') (h2 : ¬ c = '}') (h3 : ¬ c = '{')
    (h4 : ¬ (c = ':' ∨ c = '(' ∨ c = '<')) :
    postEmit o i p c = ⟨o, i, false, c, p⟩ := by
  unfold postEmit
  rw [if_neg h1, if_neg h2, if_neg h3, if_neg h4]

theorem dedentPhase_ne {out indent : List Char} {c : Char} (h : ¬ c = '}') :
    dedentPhase out indent c = (out, indent) := by
  unfold dedentPhase
  rw [if_neg h]

theorem processChar_indent (st : FmtState) (c : Char) :
    (processChar st c).indent =
      if c = '{' then st.indent ++ ['\t']
      else if c = '}' then st.indent.dropLast
      else st.indent := by
  by_cases hskip : st.skip_space = true ∧ rustIsWhitespace c = true ∧ ¬ st.last_char = '>'
  · rw [processChar_skip hskip.1 hskip.2.1 hskip.2.2]
    obtain ⟨_, _, _, _, _, _, n7, n8, _⟩ := ws_not_special hskip.2.1
    rw [if_neg n8, if_neg n7]
  · unfold processChar
    rw [if_neg hskip]
    unfold emitPhase
    rw [postEmit_indent]
    unfold dedentPhase
    split_ifs <;> simp_all

theorem processChar_last {st : FmtState} {c : Char}
    (hskip : ¬ (st.skip_space = true ∧ rustIsWhitespace c = true ∧ ¬ st.last_char = '>')) :
    (processChar st c).last_char = c := by
  unfold processChar
  rw [if_neg hskip]
  unfold emitPhase
  exact postEmit_last _ _ _ _

theorem eq_dropLast_append {l : List Char} {w : Char} (h : l.getLast? = some w) :
    l = l.dropLast ++ [w] := by
  have hne : l ≠ [] := by intro he; rw [he] at h; exact Option.noConfusion h
  rw [List.getLast?_eq_getLast l hne] at h
  rw [← Option.some_inj.mp h]
  exact (List.dropLast_append_getLast hne).symm

theorem nonWs_append (a b : List Char) :
    nonWsChars (a ++ b) = nonWsChars a ++ nonWsChars b := by
  simp [nonWsChars, List.filter_append]

theorem nonWs_all_ws {l : List Char} (h : ∀ x ∈ l, rustIsWhitespace x = true) :
    nonWsChars l = [] := by
  simp only [nonWsChars, List.filter_eq_nil_iff]
  intro a ha
  simp [h a ha]

theorem nonWs_dropLast_of_ws {st : FmtState} (hInv : LoopInv st)
    (hws : rustIsWhitespace st.last_char = true) :
    nonWsChars st.out.dropLast = nonWsChars st.out := by
  rcases hInv.1 hws with h | h
  · rw [h]; rfl
  · conv_rhs => rw [eq_dropLast_append h]
    rw [nonWs_append]
    have he : nonWsChars [st.last_char] = [] := nonWs_all_ws (by simp [hws])
    rw [he, List.append_nil]

theorem retroDelete_nonWs {st : FmtState} (hInv : LoopInv st) (c : Char) :
    nonWsChars (retroDelete st c) = nonWsChars st.out := by
  unfold retroDelete
  split_ifs with h1 h2 h3
  · exact nonWs_dropLast_of_ws hInv h1.2
  · rfl
  · exact nonWs_dropLast_of_ws hInv h2.2
  · rfl

theorem indent_all_tabs_ws {l : List Char} (h : ∀ ch ∈ l, ch = '\t') :
    ∀ x ∈ l, rustIsWhitespace x = true := by
  intro x hx
  rw [h x hx]
  decide

theorem loopInv_processChar {st : FmtState} (hInv : LoopInv st) (c : Char) :
    LoopInv (processChar st c) := by
  by_cases hskip : st.skip_space = true ∧ rustIsWhitespace c = true ∧ ¬ st.last_char = '>'
  · rw [processChar_skip hskip.1 hskip.2.1 hskip.2.2]
    exact hInv
  · have hlast := processChar_last hskip
    have hind := processChar_indent st c
    constructor
    · intro hws
      rw [hlast] at hws
      obtain ⟨_, n2, _, _, _, n6, n7, n8, n9⟩ := ws_not_special hws
      have n10 : ¬ (c = ':' ∨ c = '(' ∨ c = '<') := by
        intro h; rcases h with h | h | h
        exacts [n6 h, n9 h, absurd h (by intro hc; subst hc; exact absurd hws (by decide))]
      right
      unfold processChar
      rw [if_neg hskip]
      unfold emitPhase
      rw [postEmit_other _ _ _ n2 n7 n8 n10, dedentPhase_ne n7]
      exact List.getLast?_concat _
    · intro x hx
      rw [hind] at hx
      split_ifs at hx with h1 h2
      · rcases List.mem_append.mp hx with h | h
        · exact hInv.2 x h
        · simpa using h
      · exact hInv.2 x (List.dropLast_sublist _ |>.mem hx)
      · exact hInv.2 x hx

theorem loopInv_init : LoopInv initState := by
  constructor
  · intro _; left; rfl
  · intro x hx; exact absurd hx (List.not_mem_nil x)

theorem loopInv_run (st : FmtState) (s : List Char) (hInv : LoopInv st) :
    LoopInv (runState st s) := by
  induction s generalizing st with
  | nil => exact hInv
  | cons c rest ih => exact ih _ (loopInv_processChar hInv c)

theorem processChar_nonWs {st : FmtState} {c : Char} (hInv : LoopInv st) (hc : ¬ c = '}') :
    nonWsChars (processChar st c).out = nonWsChars st.out ++ nonWsChars [c] := by
  by_cases hskip : st.skip_space = true ∧ rustIsWhitespace c = true ∧ ¬ st.last_char = '>'
  · rw [processChar_skip hskip.1 hskip.2.1 hskip.2.2]
    have hcw : nonWsChars [c] = [] := nonWs_all_ws (by simp [hskip.2.1])
    rw [hcw, List.append_nil]
  · unfold processChar
    rw [if_neg hskip]
    unfold emitPhase
    rw [dedentPhase_ne hc]
    show nonWsChars
        (postEmit (retroDelete st c ++ [c]) st.indent (parenUpdate st.inside_parenthesis c) c).out =
      nonWsChars st.out ++ nonWsChars [c]
    have hiws : ∀ x ∈ '\n' ::
        (postEmit (retroDelete st c ++ [c]) st.indent (parenUpdate st.inside_parenthesis c) c).indent,
        rustIsWhitespace x = true := by
      intro x hx
      rcases List.mem_cons.mp hx with h | h
      · rw [h]; decide
      · rw [postEmit_indent] at h
        split_ifs at h with h1
        · rcases List.mem_append.mp h with h | h
          · exact indent_all_tabs_ws hInv.2 x h
          · simp only [List.mem_singleton] at h; rw [h]; decide
        · exact indent_all_tabs_ws hInv.2 x h
    rcases postEmit_out (retroDelete st c ++ [c]) st.indent (parenUpdate st.inside_parenthesis c) c
      with h | h
    · rw [h, nonWs_append, retroDelete_nonWs hInv]
    · rw [h, nonWs_append, nonWs_append, retroDelete_nonWs hInv, nonWs_all_ws hiws,
        List.append_nil]

theorem runState_nonWs (s : List Char) (st : FmtState) (hInv : LoopInv st)
    (hnb : ∀ c ∈ s, ¬ c = '}') :
    nonWsChars (runState st s).out = nonWsChars st.out ++ nonWsChars s := by
  induction s generalizing st with
  | nil => simp [runState, nonWsChars]
  | cons c rest ih =>
    show nonWsChars (runState (processChar st c) rest).out = _
    rw [ih (processChar st c) (loopInv_processChar hInv c)
        (fun x hx => hnb x (List.mem_cons_of_mem c hx)),
      processChar_nonWs hInv (hnb c (List.mem_cons_self c rest)),
      List.append_assoc]
    congr 1
    exact (nonWs_append [c] rest).symm

theorem nonWs_replaceTab (s : List Char) : nonWsChars (replaceTab s) = nonWsChars s := by
  induction s with
  | nil => rfl
  | cons c rest ih =>
    unfold replaceTab
    rw [nonWs_append, ih]
    by_cases hc : c = '\t'
    · rw [if_pos hc, hc]
      have h1 : nonWsChars [' ', ' ', ' ', ' '] = [] := by decide
      have h2 : nonWsChars ('\t' :: rest) = nonWsChars rest := by
        show nonWsChars (['\t'] ++ rest) = _
        rw [nonWs_append, show nonWsChars ['\t'] = [] from by decide, List.nil_append]
      rw [h1, h2, List.nil_append]
    · rw [if_neg hc]
      show nonWsChars [c] ++ nonWsChars rest = nonWsChars (c :: rest)
      rw [← nonWs_append]
      rfl

theorem nonWs_cons (c : Char) (l : List Char) :
    nonWsChars (c :: l) = (if rustIsWhitespace c then [] else [c]) ++ nonWsChars l := by
  by_cases h : rustIsWhitespace c
  · simp [nonWsChars, List.filter_cons, h]
  · simp [nonWsChars, List.filter_cons, h]

theorem nonWs_replaceTable (s : List Char) : nonWsChars (replaceTable s) = nonWsChars s := by
  induction s using replaceTable.induct with
  | case1 rest ih =>
    rw [replaceTable.eq_1]
    simp only [nonWs_cons, ih]
    rw [show rustIsWhitespace '\n' = true from by decide]
    simp
  | case2 c rest h ih =>
    rw [replaceTable.eq_2 c rest h, nonWs_cons, nonWs_cons, ih]
  | case3 => rfl

theorem nonWs_dropWhile_ws (s : List Char) :
    nonWsChars (s.dropWhile rustIsWhitespace) = nonWsChars s := by
  induction s with
  | nil => rfl
  | cons c rest ih =>
    by_cases h : rustIsWhitespace c
    · rw [List.dropWhile_cons_of_pos h, ih, nonWs_cons, if_pos h, List.nil_append]
    · rw [List.dropWhile_cons_of_neg h]

theorem nonWs_reverse (s : List Char) : nonWsChars s.reverse = (nonWsChars s).reverse := by
  simp [nonWsChars, List.filter_reverse]

theorem nonWs_trimL (s : List Char) : nonWsChars (trimL s) = nonWsChars s := by
  unfold trimL
  rw [nonWs_reverse, nonWs_dropWhile_ws, nonWs_reverse, List.reverse_reverse,
    nonWs_dropWhile_ws]

theorem nonWs_formatSchemaCore {s : List Char} (hnb : ∀ c ∈ s, ¬ c = '}') :
    nonWsChars (formatSchemaCore s) = nonWsChars s := by
  unfold formatSchemaCore
  rw [nonWs_trimL, nonWs_replaceTable, nonWs_replaceTab,
    runState_nonWs s initState loopInv_init hnb]
  rfl

theorem tab_notMem_replaceTab (s : List Char) : ¬ '\t' ∈ replaceTab s := by
  induction s with
  | nil => exact List.not_mem_nil _
  | cons c rest ih =>
    unfold replaceTab
    intro hmem
    rcases List.mem_append.mp hmem with h | h
    · by_cases hc : c = '\t'
      · rw [if_pos hc] at h
        exact absurd h (by decide)
      · rw [if_neg hc] at h
        exact hc (List.mem_singleton.mp h).symm
    · exact ih h

theorem tab_notMem_replaceTable {s : List Char} (hs : ¬ '\t' ∈ s) :
    ¬ '\t' ∈ replaceTable s := by
  induction s using replaceTable.induct with
  | case1 rest ih =>
    rw [replaceTable.eq_1]
    intro hmem
    have hrest : ¬ '\t' ∈ rest := fun h => hs (by simp [h])
    simp only [List.mem_cons] at hmem
    rcases hmem with h | h | h | h | h | h | h | h
    · exact absurd h (by decide)
    · exact absurd h (by decide)
    · exact absurd h (by decide)
    · exact absurd h (by decide)
    · exact absurd h (by decide)
    · exact absurd h (by decide)
    · exact absurd h (by decide)
    · exact ih hrest h
  | case2 c rest h ih =>
    rw [replaceTable.eq_2 c rest h]
    intro hmem
    rcases List.mem_cons.mp hmem with hh | hh
    · exact hs (by rw [← hh]; exact List.mem_cons_self _ _)
    · exact ih (fun hr => hs (List.mem_cons_of_mem c hr)) hh
  | case3 => exact List.not_mem_nil _

theorem tab_notMem_trimL {s : List Char} (hs : ¬ '\t' ∈ s) : ¬ '\t' ∈ trimL s := by
  unfold trimL
  intro h
  have h1 := List.mem_reverse.mp h
  have h2 := (List.dropWhile_sublist _).mem h1
  have h3 := List.mem_reverse.mp h2
  exact hs ((List.dropWhile_sublist _).mem h3)

theorem processChar_ordinary {st : FmtState} {c : Char}
    (hsk : ¬ (st.skip_space = true ∧ rustIsWhitespace c = true ∧ ¬ st.last_char = '>'))
    (hretro : retroDelete st c = st.out)
    (n2 : ¬ c = ',') (n7 : ¬ c = '}') (n8 : ¬ c = '{') (n9 : ¬ c = '(') (n4 : ¬ c = ')')
    (n10 : ¬ (c = ':' ∨ c = '(' ∨ c = '<')) :
    processChar st c = ⟨st.out ++ [c], st.indent, false, c, st.inside_parenthesis⟩ := by
  unfold processChar
  rw [if_neg hsk]
  unfold emitPhase
  rw [hretro, dedentPhase_ne n7]
  show postEmit (st.out ++ [c]) st.indent (parenUpdate st.inside_parenthesis c) c = _
  have hpar : parenUpdate st.inside_parenthesis c = st.inside_parenthesis := by
    unfold parenUpdate
    rw [if_neg n9, if_neg n4]
  rw [hpar, postEmit_other _ _ _ n2 n7 n8 n10]

theorem runState_all_ws (s : List Char) (hws : ∀ c ∈ s, rustIsWhitespace c = true) :
    ∃ l, runState initState s = ⟨s, [], false, l, false⟩ ∧ rustIsWhitespace l = true := by
  induction s using List.reverseRecOn with
  | nil => exact ⟨' ', rfl, by decide⟩
  | append_singleton p c ih =>
    have hp : ∀ x ∈ p, rustIsWhitespace x = true :=
      fun x hx => hws x (List.mem_append_left _ hx)
    have hc : rustIsWhitespace c = true :=
      hws c (List.mem_append_right _ (List.mem_singleton_self c))
    obtain ⟨l, hrun, hl⟩ := ih hp
    obtain ⟨n1, n2, n3, n4, n5, n6, n7, n8, n9⟩ := ws_not_special hc
    refine ⟨c, ?_, hc⟩
    rw [show runState initState (p ++ [c]) = processChar (runState initState p) c from by
        simp [runState, List.foldl_append],
      hrun]
    have hretro : retroDelete ⟨p, [], false, l, false⟩ c = p := by
      unfold retroDelete
      rw [if_neg, if_neg]
      · intro ⟨hcc, _⟩; exact n6 hcc
      · intro ⟨hcc, _⟩
        rcases hcc with h | h | h | h | h
        exacts [n1 h, n2 h, n3 h, n4 h, n5 h]
    have n10 : ¬ (c = ':' ∨ c = '(' ∨ c = '<') := by
      intro h; rcases h with h | h | h; exacts [n6 h, n9 h, n3 h]
    rw [processChar_ordinary (by simp) hretro n2 n7 n8 n9 n4 n10]

theorem all_ws_replaceTab {s : List Char} (h : ∀ c ∈ s, rustIsWhitespace c = true) :
    ∀ c ∈ replaceTab s, rustIsWhitespace c = true := by
  induction s with
  | nil => intro c hc; exact absurd hc (List.not_mem_nil c)
  | cons a rest ih =>
    intro c hc
    unfold replaceTab at hc
    rcases List.mem_append.mp hc with hm | hm
    · by_cases ha : a = '\t'
      · rw [if_pos ha] at hm
        simp only [List.mem_cons, List.mem_singleton, List.not_mem_nil, or_false] at hm
        rcases hm with h | h | h | h <;> (rw [h]; decide)
      · rw [if_neg ha] at hm
        rw [List.mem_singleton.mp hm]
        exact h a (List.mem_cons_self a rest)
    · exact ih (fun x hx => h x (List.mem_cons_of_mem a hx)) c hm

theorem all_ws_replaceTable {s : List Char} (h : ∀ c ∈ s, rustIsWhitespace c = true) :
    replaceTable s = s := by
  induction s using replaceTable.induct with
  | case1 rest ih => exact absurd (h 't' (by simp)) (by decide)
  | case2 c rest hno ih =>
    rw [replaceTable.eq_2 c rest hno, ih (fun x hx => h x (List.mem_cons_of_mem c hx))]
  | case3 => rfl

theorem trimL_all_ws {s : List Char} (h : ∀ c ∈ s, rustIsWhitespace c = true) :
    trimL s = [] := by
  unfold trimL
  rw [List.dropWhile_eq_nil_iff.mpr h]
  rfl

theorem dropThroughNewlineRev_no_nl {l : List Char} (h : ¬ '\n' ∈ l) :
    dropThroughNewlineRev l = [] := by
  induction l with
  | nil => rfl
  | cons c rest ih =>
    unfold dropThroughNewlineRev
    rw [if_neg (fun hc => h (by rw [← hc]; exact List.mem_cons_self c rest))]
    exact ih (fun hr => h (List.mem_cons_of_mem c hr))

theorem popUntilNewline_no_nl {out : List Char} (h : ¬ '\n' ∈ out) :
    popUntilNewline out = [] := by
  unfold popUntilNewline
  rw [dropThroughNewlineRev_no_nl (fun hr => h (List.mem_reverse.mp hr))]
  rfl

theorem count_append_singleton (q : List Char) (c a : Char) :
    (q ++ [c]).count a = q.count a + if c = a then 1 else 0 := by
  rw [List.count_append, List.count_singleton]
  simp [beq_iff_eq]

theorem indent_length_run (p : List Char)
    (hbal : ∀ n, ((p.take n).count '}') ≤ ((p.take n).count '{')) :
    (runState initState p).indent.length = p.count '{' - p.count '}' := by
  induction p using List.reverseRecOn with
  | nil => rfl
  | append_singleton q c ih =>
    have hq : ∀ n, ((q.take n).count '}') ≤ ((q.take n).count '{') := by
      intro n
      by_cases hn : n ≤ q.length
      · have hh := hbal n
        rwa [List.take_append_of_le_length hn] at hh
      · have hfull := hbal q.length
        rw [List.take_append_of_le_length (le_refl _), List.take_length] at hfull
        rwa [List.take_of_length_le (le_of_not_le hn)]
    have hqfull : q.count '}' ≤ q.count '{' := by
      have hh := hq q.length
      rwa [List.take_length] at hh
    have hrun : runState initState (q ++ [c]) = processChar (runState initState q) c := by
      simp [runState, List.foldl_append]
    rw [hrun, processChar_indent, count_append_singleton, count_append_singleton]
    by_cases h1 : c = '{'
    · rw [if_pos h1, List.length_append, ih hq, if_pos h1,
        if_neg (by rw [h1]; decide), List.length_singleton]
      omega
    · by_cases h2 : c = '}'
      · have hfull := hbal (q.length + 1)
        rw [List.take_of_length_le (by simp)] at hfull
        rw [count_append_singleton, count_append_singleton, if_pos h2,
          if_neg (by rw [h2]; decide)] at hfull
        rw [if_neg h1, if_pos h2, List.length_dropLast, ih hq, if_neg h1, if_pos h2]
        omega
      · rw [if_neg h1, if_neg h2, ih hq, if_neg h1, if_neg h2]
        omega

/-- Claim C1 (amended): for every input containing no closing brace, the
multiset of non-whitespace characters of the output of the formatter equals
that of the input.  (The dedent rewrite triggered by a closing brace can
delete non-whitespace characters, which is the amendment the counterexample
forces.) -/
theorem c1_token_preservation (s : List Char) (h : ¬ '}' ∈ s) :
    tokenMultiset (formatSchemaCore s) = tokenMultiset s := by
  unfold tokenMultiset
  rw [nonWs_formatSchemaCore (fun c hc hceq => h (by rw [← hceq]; exact hc))]

/-- Witness for C1's amended theorem at the input "a , b". -/
theorem c1_token_preservation_witness :
    tokenMultiset (formatSchemaCore ("a , b".toList)) = tokenMultiset ("a , b".toList) :=
  c1_token_preservation _ (by decide)

/-- Counterexample to C1 as stated: on input "a}" the dedent rewrite deletes
the non-whitespace character 'a', so the non-whitespace multisets differ. -/
theorem c1_counterexample :
    tokenMultiset (formatSchemaCore ['a', '}']) ≠ tokenMultiset ['a', '}'] := by decide

/-- Claim C2: the formatter is total — it returns Ok text on every input;
popping an indentation unit from an empty prefix leaves it empty; and the
backward newline scan on a buffer with no newline empties the buffer. -/
theorem c2_totality :
    (∀ s : List Char, ∃ t, format_schema s = Except.ok t) ∧
    (∀ st : FmtState, st.indent = [] → (processChar st '}').indent = []) ∧
    (∀ out : List Char, ¬ '\n' ∈ out → popUntilNewline out = []) := by
  refine ⟨fun s => ⟨formatSchemaCore s, rfl⟩, fun st h => ?_,
    fun out h => popUntilNewline_no_nl h⟩
  rw [processChar_indent, if_neg (by decide), if_pos rfl, h]
  rfl

/-- Witness for C2 at concrete states and buffers. -/
theorem c2_totality_witness :
    (processChar ⟨['x'], [], false, 'x', false⟩ '}').indent = [] ∧
      popUntilNewline ['a', 'b'] = [] :=
  ⟨c2_totality.2.1 _ rfl, c2_totality.2.2 _ (by decide)⟩

/-- Claim C3: on an input whose every prefix has at least as many opening as
closing braces, the indentation prefix length after processing the first `n`
characters equals the number of unmatched opening braces among them. -/
theorem c3_depth_indent (s : List Char) (n : Nat)
    (hbal : ∀ k, k ≤ s.length → ((s.take k).count '}') ≤ ((s.take k).count '{')) :
    (runState initState (s.take n)).indent.length =
      (s.take n).count '{' - (s.take n).count '}' := by
  apply indent_length_run
  intro k
  rw [List.take_take]
  by_cases hk : k ⊓ n ≤ s.length
  · exact hbal _ hk
  · rw [List.take_of_length_le (le_of_not_le hk)]
    have hh := hbal s.length (le_refl _)
    rwa [List.take_length] at hh

/-- Witness for C3 on a balanced input, after three characters. -/
theorem c3_depth_indent_witness :
    (runState initState ((['{', 'a', '{', '}', '}']).take 3)).indent.length =
      ((['{', 'a', '{', '}', '}']).take 3).count '{' -
      ((['{', 'a', '{', '}', '}']).take 3).count '}' :=
  c3_depth_indent _ 3 (by decide)

/-- Claim C4 (amended): when the current character is ':' and the last
processed character is whitespace sitting at the end of the output, the
whitespace is deleted unless the character immediately preceding it (the
whitespace's own predecessor) is '>', in which case it is kept. -/
theorem c4_colon_arrow (st : FmtState) (pre : List Char) (x w : Char)
    (hout : st.out = pre ++ [x, w]) (hws : rustIsWhitespace st.last_char = true) :
    (processChar st ':').out =
      if x = '>' then pre ++ [x, w, ':'] else pre ++ [x, ':'] := by
  have hdl : st.out.dropLast = pre ++ [x] := by
    rw [hout, show pre ++ [x, w] = (pre ++ [x]) ++ [w] from by simp, List.dropLast_concat]
  have hretro : retroDelete st ':' =
      if x = '>' then pre ++ [x, w] else pre ++ [x] := by
    unfold retroDelete
    rw [if_neg (fun hg => absurd hg.1 (by decide)), if_pos ⟨rfl, hws⟩,
      show st.out.dropLast.getLast? = some x from by rw [hdl]; exact List.getLast?_concat _,
      hout]
    by_cases hx : x = '>'
    · rw [if_pos (by rw [hx]), if_pos hx]
    · rw [if_neg (fun hsome => hx (Option.some_inj.mp hsome)), if_neg hx,
        show pre ++ [x, w] = (pre ++ [x]) ++ [w] from by simp, List.dropLast_concat]
  have hpe : ∀ (o i : List Char) (p : Bool), postEmit o i p ':' = ⟨o, i, true, ':', p⟩ := by
    intro o i p
    unfold postEmit
    rw [if_neg (by decide), if_neg (by decide), if_neg (by decide), if_pos (Or.inl rfl)]
  unfold processChar
  rw [if_neg (fun hg => absurd hg.2.1 (by decide))]
  unfold emitPhase
  rw [hretro, dedentPhase_ne (by decide)]
  show (postEmit ((if x = '>' then pre ++ [x, w] else pre ++ [x]) ++ [':'])
      st.indent (parenUpdate st.inside_parenthesis ':') ':').out = _
  rw [hpe]
  by_cases hx : x = '>'
  · rw [if_pos hx, if_pos hx]
    simp
  · rw [if_neg hx, if_neg hx]
    simp

/-- Witness for C4's amended theorem: in "-> :" the character before the
space is '>', so the space is kept. -/
theorem c4_colon_arrow_witness :
    (processChar ⟨['-', '>', ' '], [], false, ' ', false⟩ ':').out = ['-', '>', ' ', ':'] := by
  have h := c4_colon_arrow ⟨['-', '>', ' '], [], false, ' ', false⟩ ['-'] '>' ' ' rfl (by decide)
  rw [if_pos rfl] at h
  exact h

/-- Counterexample to C4 as stated: the claim's wording examines the
character before the whitespace's predecessor; a formatter implementing that
wording deletes the space of "a> :b", while the code keeps it. -/
theorem c4_counterexample :
    formatSchemaC4spec ("a> :b".toList) = "a>:b".toList ∧
    formatSchemaCore ("a> :b".toList) = "a> :b".toList ∧
    formatSchemaC4spec ("a> :b".toList) ≠ formatSchemaCore ("a> :b".toList) := by decide

/-- Claim C5 (amended): when the skip-space flag is set, the current
character is whitespace and the last processed character is not '>', the
character is dropped with the entire state unchanged — in particular the
flag stays set, persisting across a whole whitespace run. -/
theorem c5_skip_space (st : FmtState) (c : Char) (h1 : st.skip_space = true)
    (h2 : rustIsWhitespace c = true) (h3 : ¬ st.last_char = '>') :
    processChar st c = st :=
  processChar_skip h1 h2 h3

/-- Witness for C5's amended theorem at a concrete state. -/
theorem c5_skip_space_witness :
    processChar ⟨['<'], [], true, '<', false⟩ ' ' = ⟨['<'], [], true, '<', false⟩ :=
  c5_skip_space _ _ rfl (by decide) (by decide)

/-- Counterexample to C5 as stated: a formatter whose skip-space flag resets
as soon as one whitespace character is skipped emits the second space of
"Nullable <  Integer >", while the code (and its own unit test) drops the
whole run. -/
theorem c5_counterexample :
    formatSchemaC5spec ("Nullable <  Integer >".toList) = "Nullable< Integer>".toList ∧
    formatSchemaCore ("Nullable <  Integer >".toList) = "Nullable<Integer>".toList ∧
    formatSchemaC5spec ("Nullable <  Integer >".toList) ≠
      formatSchemaCore ("Nullable <  Integer >".toList) := by decide

/-- Claim C6: a comma processed while the parenthesis flag is true appends
only the comma (no newline, no indentation); with the flag false it appends
the comma followed by a newline and the current indentation prefix, setting
skip-space. -/
theorem c6_comma_paren (st : FmtState) :
    (st.inside_parenthesis = true →
      processChar st ',' =
        ⟨(if rustIsWhitespace st.last_char = true then st.out.dropLast else st.out) ++ [','],
          st.indent, false, ',', true⟩) ∧
    (st.inside_parenthesis = false →
      processChar st ',' =
        ⟨(if rustIsWhitespace st.last_char = true then st.out.dropLast else st.out) ++ [','] ++
            '\n' :: st.indent,
          st.indent, true, ',', false⟩) := by
  have hretro : retroDelete st ',' =
      if rustIsWhitespace st.last_char = true then st.out.dropLast else st.out := by
    unfold retroDelete
    by_cases hws : rustIsWhitespace st.last_char = true
    · rw [if_pos ⟨Or.inr (Or.inl rfl), hws⟩, if_pos hws]
    · rw [if_neg (fun hg => hws hg.2), if_neg (fun hg => hws hg.2), if_neg hws]
  have hskip : ¬ (st.skip_space = true ∧ rustIsWhitespace ',' = true ∧ ¬ st.last_char = '>') :=
    fun hg => absurd hg.2.1 (by decide)
  have hpar : parenUpdate st.inside_parenthesis ',' = st.inside_parenthesis := by
    unfold parenUpdate
    rw [if_neg (by decide), if_neg (by decide)]
  constructor <;> intro hp
  · unfold processChar
    rw [if_neg hskip]
    unfold emitPhase
    rw [hretro, dedentPhase_ne (by decide)]
    show postEmit _ st.indent (parenUpdate st.inside_parenthesis ',') ',' = _
    rw [hpar, hp]
    unfold postEmit
    rw [if_pos rfl, if_pos rfl]
  · unfold processChar
    rw [if_neg hskip]
    unfold emitPhase
    rw [hretro, dedentPhase_ne (by decide)]
    show postEmit _ st.indent (parenUpdate st.inside_parenthesis ',') ',' = _
    rw [hpar, hp]
    unfold postEmit
    rw [if_pos rfl, if_neg (by decide)]

/-- Witness for C6 at a concrete state with the parenthesis flag set. -/
theorem c6_comma_paren_witness :
    processChar ⟨['('], [], true, '(', true⟩ ',' = ⟨['(', ','], [], false, ',', true⟩ := by
  have h := (c6_comma_paren ⟨['('], [], true, '(', true⟩).1 rfl
  rw [if_neg (by decide)] at h
  exact h

/-- Claim C7: the formatter maps "Nullable <  Integer >" (two spaces) to
exactly "Nullable<Integer>". -/
theorem c7_nullable_multispace :
    format_schema ("Nullable <  Integer >".toList) =
      Except.ok ("Nullable<Integer>".toList) :=
  congrArg Except.ok (by decide)

/-- Claim C8: at the start of each loop iteration (after any number of
characters have been processed), if the last processed character is
whitespace then the output buffer is empty or ends with that very character;
consequently the retroactive deletion for any next character either leaves
the buffer unchanged or removes exactly one whitespace character. -/
theorem c8_last_ws_invariant (s : List Char) (n : Nat) :
    (rustIsWhitespace (runState initState (s.take n)).last_char = true →
      (runState initState (s.take n)).out = [] ∨
      (runState initState (s.take n)).out.getLast? =
        some (runState initState (s.take n)).last_char) ∧
    (∀ c : Char,
      retroDelete (runState initState (s.take n)) c = (runState initState (s.take n)).out ∨
      ∃ w, rustIsWhitespace w = true ∧
        (runState initState (s.take n)).out =
          retroDelete (runState initState (s.take n)) c ++ [w]) := by
  have hInv := loopInv_run initState (s.take n) loopInv_init
  refine ⟨hInv.1, fun c => ?_⟩
  unfold retroDelete
  split_ifs with g1 g2 g3
  · rcases hInv.1 g1.2 with h | h
    · left; rw [h]; rfl
    · right
      exact ⟨(runState initState (s.take n)).last_char, g1.2, eq_dropLast_append h⟩
  · left; rfl
  · rcases hInv.1 g2.2 with h | h
    · left; rw [h]; rfl
    · right
      exact ⟨(runState initState (s.take n)).last_char, g2.2, eq_dropLast_append h⟩
  · left; rfl

/-- Witness for C8 after processing the single character " ". -/
theorem c8_last_ws_invariant_witness :
    (runState initState ([' '].take 1)).out = [] ∨
    (runState initState ([' '].take 1)).out.getLast? =
      some (runState initState ([' '].take 1)).last_char :=
  (c8_last_ws_invariant [' '] 1).1 (by decide)

/-- Claim C9: the formatter's output never contains a tab character: the
post-processing replaces every tab — including tabs from the input — by four
spaces, and the later steps introduce none. -/
theorem c9_no_tab (s : List Char) : (formatSchemaCore s).count '\t' = 0 := by
  unfold formatSchemaCore
  exact List.count_eq_zero.mpr
    (tab_notMem_trimL (tab_notMem_replaceTable (tab_notMem_replaceTab _)))

/-- Claim C10: on an input consisting solely of whitespace characters
(including the empty input) the formatter returns Ok of the empty string. -/
theorem c10_whitespace_input (s : List Char) (h : ∀ c ∈ s, rustIsWhitespace c = true) :
    format_schema s = Except.ok [] := by
  obtain ⟨l, hrun, _⟩ := runState_all_ws s h
  have h1 := all_ws_replaceTab h
  unfold format_schema formatSchemaCore
  rw [hrun]
  show Except.ok (trimL (replaceTable (replaceTab s))) = Except.ok []
  rw [all_ws_replaceTable h1, trimL_all_ws h1]

/-- Witness for C10 at the input " \t\n". -/
theorem c10_whitespace_input_witness : format_schema [' ', '\t', '\n'] = Except.ok [] :=
  c10_whitespace_input _ (by decide)
